import Mathlib

/-!
Verification of the hybrid retrieval engine of the RAG-Project repository.

The repository ships the engine's documentation (deployment summary, feature
specs, research notes) and its TypeScript dashboard, while the Python backend
modules they describe (`documents.py` chunking, `search_service.py` hybrid
BM25 + semantic search) are not part of the source tree.  The engine is
therefore embedded here from the specification's own contracts; the frontend
error classifier at the end is embedded directly from
`frontend/rag-frontend/src/app/(dashboard)/chat/page.tsx`.
-/

namespace RagEngine

/-! ## Configuration constants (from the documented `.env` defaults) -/

/-- Minimum cleaned text length accepted by the chunker (threshold 50). -/
def MIN_TEXT_LENGTH : Nat := 50

/-- Default chunk size (`CHUNK_SIZE=1000`). -/
def CHUNK_SIZE : Nat := 1000

/-- Default chunk overlap (`CHUNK_OVERLAP=200`). -/
def CHUNK_OVERLAP : Nat := 200

/-- Default number of results returned per query (`DEFAULT_TOP_K=5`). -/
def DEFAULT_TOP_K : Nat := 5

/-! ## Chunker -/

/-- Failure reasons of the chunker: `ChunkingError{EmptyInput | BelowMinimumLength}`. -/
inductive ChunkingReason where
  | EmptyInput
  | BelowMinimumLength
deriving DecidableEq, Repr

/-- A position-tracked chunk of a document (spec section 3 data model). -/
structure DocumentChunk where
  document_id : String
  chunk_index : Nat
  content : List Char
  start_char : Nat
  end_char : Nat
  tenant_id : String
deriving DecidableEq, Inhabited, Repr

/-- Modelled from the spec: the chunker's single documented Unicode
normalization pass (NFC) before splitting.  Text is represented as a code-point
sequence and the normalization pass itself is the identity on it. -/
def cleanText (t : List Char) : List Char := t

/-- Modelled from the spec: number of chunks produced for a text of length `L`
with chunk size `S` and stride `S - O`: the chunks start at `i * (S - O)` and
the last one is the first that reaches the end of the text. -/
def numChunks (S O L : Nat) : Nat := (L - S + (S - O) - 1) / (S - O) + 1

/-- `k` chunk boundary pairs walked forward from `pos` with stride `step`;
each chunk ends `S` characters later, clipped to the text length `L`. -/
def boundsFrom (S step L : Nat) : Nat → Nat → List (Nat × Nat)
  | 0, _ => []
  | k + 1, pos => (pos, min (pos + S) L) :: boundsFrom S step L k (pos + step)

/-- Modelled from the spec: the half-open character ranges of the chunks of a
text of length `L`, chunk `i` starting at `i * (S - O)` and spanning `S`
characters, the last running to the end of the text. -/
def chunkBounds (S O L : Nat) : List (Nat × Nat) :=
  boundsFrom S (S - O) L (numChunks S O L) 0

/-- The substring of `t` at the half-open range `p`. -/
def sliceB (t : List Char) (p : Nat × Nat) : List Char :=
  (t.drop p.1).take (p.2 - p.1)

/-- Modelled from the spec: `chunk(text, size, overlap)` — the ordered,
position-tracked chunk sequence of a document (missing source:
`documents.py` chunking). -/
def chunkText (tenant doc : String) (t : List Char) (S O : Nat) :
    List DocumentChunk :=
  (chunkBounds S O t.length).enum.map
    (fun ip => ⟨doc, ip.1, sliceB t ip.2, ip.2.1, ip.2.2, tenant⟩)

/-- Modelled from the spec: the ingestion API surface
`ingest(tenant_id, document_id, text, chunk_size, overlap)`; guards the
minimum-length precondition and raises `ChunkingError` below it. -/
def ingest (tenant doc : String) (t : List Char) (S O : Nat) :
    Except ChunkingReason (List DocumentChunk) :=
  if (cleanText t).length = 0 then .error .EmptyInput
  else if (cleanText t).length < MIN_TEXT_LENGTH then .error .BelowMinimumLength
  else .ok (chunkText tenant doc (cleanText t) S O)

instance {ε α : Type} [DecidableEq ε] [DecidableEq α] : DecidableEq (Except ε α) :=
  fun a b =>
    match a, b with
    | .ok x, .ok y =>
      if h : x = y then isTrue (by rw [h]) else
        isFalse (by intro hc; cases hc; exact h rfl)
    | .error e, .error f =>
      if h : e = f then isTrue (by rw [h]) else
        isFalse (by intro hc; cases hc; exact h rfl)
    | .ok _, .error _ => isFalse (by intro hc; cases hc)
    | .error _, .ok _ => isFalse (by intro hc; cases hc)

/-- Concatenation of the non-overlapping portions of a chunk-content sequence:
the first chunk whole, every later chunk with its leading `O`-character
overlap removed. -/
def uniqueJoin (O : Nat) : List (List Char) → List Char
  | [] => []
  | c :: cs => c ++ (cs.map (List.drop O)).flatten

/-! ## Lexical channel: tokenizer and BM25 -/

/-- Lowercasing pass of the tokenizer (`lowercase` step of the spec's
tokenization contract). -/
def lowerStr (s : List Char) : List Char := s.map Char.toLower

/-- Fuel-indexed splitter: collects the maximal alphanumeric runs of the
input, discarding the non-alphanumeric separators; `fuel` at least the input
length makes it total. -/
def tokensFuel : Nat → List Char → List (List Char)
  | 0, _ => []
  | _ + 1, [] => []
  | f + 1, c :: cs =>
    if c.isAlphanum then
      (c :: cs.takeWhile Char.isAlphanum) :: tokensFuel f (cs.dropWhile Char.isAlphanum)
    else
      tokensFuel f cs

/-- Modelled from the spec: BM25 tokenization — lowercase, split on
non-alphanumeric boundaries, no stemming (missing source:
`search_service.py`). -/
def tokenize (s : List Char) : List (List Char) :=
  tokensFuel (lowerStr s).length (lowerStr s)

/-- BM25 term-frequency saturation constant `k1 = 1.5`. -/
def BM25_K1 : ℚ := 3 / 2

/-- BM25 length-normalization constant `b = 0.75`. -/
def BM25_B : ℚ := 3 / 4

/-- Number of occurrences of a token in a tokenized chunk. -/
def termFreq (tk : List Char) (doc : List (List Char)) : Nat := doc.count tk

/-- Average tokenized chunk length of the corpus. -/
def avgdl (docs : List (List (List Char))) : ℚ :=
  (docs.map (fun d => (d.length : ℚ))).sum / (docs.length : ℚ)

/-- Modelled from the spec: the per-term Okapi BM25 contribution
`idf * tf * (k1 + 1) / (tf + k1 * (1 - b + b * dl / avgdl))`.  The inverse
document frequency factor is a logarithm and hence not representable in exact
rational arithmetic; it enters as the abstract parameter `idf`. -/
def bm25TermScore (idf tf dl avg : ℚ) : ℚ :=
  idf * (tf * (BM25_K1 + 1)) / (tf + BM25_K1 * (1 - BM25_B + BM25_B * (dl / avg)))

/-- Modelled from the spec: Okapi BM25 score of a tokenized chunk against a
tokenized query — the sum of the per-term contributions. -/
def bm25Score (idf : List Char → ℚ) (qtoks doc : List (List Char)) (avg : ℚ) : ℚ :=
  (qtoks.map (fun tk =>
    bm25TermScore (idf tk) (termFreq tk doc : ℚ) (doc.length : ℚ) avg)).sum

/-! ## Hybrid ranker -/

/-- Equal lexical weight of the 50/50 hybrid combination. -/
def HYBRID_LEXICAL_WEIGHT : ℚ := 1 / 2

/-- Equal semantic weight of the 50/50 hybrid combination. -/
def HYBRID_SEMANTIC_WEIGHT : ℚ := 1 / 2

/-- Candidate fan-out per channel: `N = max(20, 4 * top_k)`. -/
def candN (top_k : Nat) : Nat := max 20 (4 * top_k)

/-- Smallest element of a score list (0 on the empty list, which the ranker
never normalizes over). -/
def listMin : List ℚ → ℚ
  | [] => 0
  | [x] => x
  | x :: y :: tl => min x (listMin (y :: tl))

/-- Largest element of a score list (0 on the empty list). -/
def listMax : List ℚ → ℚ
  | [] => 0
  | [x] => x
  | x :: y :: tl => max x (listMax (y :: tl))

/-- Modelled from the spec: min-max normalization of a raw lexical score
within the query's own candidate score set, with the degenerate
`max == min` case mapping every score of a non-empty set to `1`. -/
def minMaxNorm (scores : List ℚ) (s : ℚ) : ℚ :=
  if listMax scores = listMin scores then 1
  else (s - listMin scores) / (listMax scores - listMin scores)

/-- Modelled from the spec: semantic scores are clamped to `[0,1]`; a negative
cosine similarity contributes `0`. -/
def clamp01 (s : ℚ) : ℚ := max 0 (min 1 s)

/-- Normalized lexical contribution of a chunk: its min-max normalized raw
score when the lexical channel returned it, `0` when absent. -/
def lexNormOf (lex : List (DocumentChunk × ℚ)) (c : DocumentChunk) : ℚ :=
  match lex.find? (fun p => decide (p.1 = c)) with
  | some p => minMaxNorm (lex.map Prod.snd) p.2
  | none => 0

/-- Clamped semantic contribution of a chunk: its clamped similarity when the
semantic channel returned it, `0` when absent. -/
def semNormOf (sem : List (DocumentChunk × ℚ)) (c : DocumentChunk) : ℚ :=
  match sem.find? (fun p => decide (p.1 = c)) with
  | some p => clamp01 p.2
  | none => 0

/-- The union of the chunks returned by the two channels, without duplicates. -/
def candidateKeys (lex sem : List (DocumentChunk × ℚ)) : List DocumentChunk :=
  (lex.map Prod.fst ++ sem.map Prod.fst).dedup

/-- `combined_score = 0.5 * lexical_norm + 0.5 * semantic_norm`. -/
def combinedScore (lex sem : List (DocumentChunk × ℚ)) (c : DocumentChunk) : ℚ :=
  HYBRID_LEXICAL_WEIGHT * lexNormOf lex c + HYBRID_SEMANTIC_WEIGHT * semNormOf sem c

/-- A merged retrieval candidate: a chunk together with its combined score. -/
structure RankedCandidate where
  chunk : DocumentChunk
  combined_score : ℚ
deriving DecidableEq, Inhabited, Repr

/-- Modelled from the spec: the merged candidate set — every chunk appearing
in either channel, scored by the 50/50 combination. -/
def mergeCandidates (lex sem : List (DocumentChunk × ℚ)) : List RankedCandidate :=
  (candidateKeys lex sem).map (fun c => ⟨c, combinedScore lex sem c⟩)

/-- The ranker's output order: descending by `combined_score`, ties broken by
`chunk_index` ascending, then by `document_id` in lexical order. -/
def RankLE (a b : RankedCandidate) : Prop :=
  b.combined_score < a.combined_score ∨
    (a.combined_score = b.combined_score ∧
      (a.chunk.chunk_index < b.chunk.chunk_index ∨
        (a.chunk.chunk_index = b.chunk.chunk_index ∧
          a.chunk.document_id ≤ b.chunk.document_id)))

instance : DecidableRel RankLE := fun a b => by
  unfold RankLE
  exact inferInstance

instance : IsTotal RankedCandidate RankLE := by
  constructor
  intro a b
  unfold RankLE
  rcases lt_trichotomy a.combined_score b.combined_score with h | h | h
  · right; exact Or.inl h
  · rcases Nat.lt_trichotomy a.chunk.chunk_index b.chunk.chunk_index with hi | hi | hi
    · left; exact Or.inr ⟨h, Or.inl hi⟩
    · rcases le_total a.chunk.document_id b.chunk.document_id with hd | hd
      · left; exact Or.inr ⟨h, Or.inr ⟨hi, hd⟩⟩
      · right; exact Or.inr ⟨h.symm, Or.inr ⟨hi.symm, hd⟩⟩
    · right; exact Or.inr ⟨h.symm, Or.inl hi⟩
  · left; exact Or.inl h

instance : IsTrans RankedCandidate RankLE := by
  constructor
  intro a b c hab hbc
  unfold RankLE at hab hbc ⊢
  rcases hab with h1 | ⟨e1, h1⟩
  · rcases hbc with h2 | ⟨e2, _⟩
    · exact Or.inl (h2.trans h1)
    · left; rw [← e2]; exact h1
  · rcases hbc with h2 | ⟨e2, h2⟩
    · left; rw [e1]; exact h2
    · right
      refine ⟨e1.trans e2, ?_⟩
      rcases h1 with h1 | ⟨i1, d1⟩ <;> rcases h2 with h2 | ⟨i2, d2⟩
      · exact Or.inl (h1.trans h2)
      · left; rw [← i2]; exact h1
      · left; rw [i1]; exact h2
      · exact Or.inr ⟨i1.trans i2, d1.trans d2⟩

/-- Modelled from the spec: sort the merged candidates by `RankLE` and
truncate to `top_k`. -/
def hybridRank (lex sem : List (DocumentChunk × ℚ)) (top_k : Nat) :
    List RankedCandidate :=
  ((mergeCandidates lex sem).insertionSort RankLE).take top_k

/-! ## Channels and orchestration -/

/-- Channel-internal order: descending by raw score. -/
def ByScoreDesc (a b : DocumentChunk × ℚ) : Prop := b.2 ≤ a.2

instance : DecidableRel ByScoreDesc := fun a b => by
  unfold ByScoreDesc
  exact inferInstance

instance : IsTotal (DocumentChunk × ℚ) ByScoreDesc :=
  ⟨fun a b => le_total b.2 a.2⟩

instance : IsTrans (DocumentChunk × ℚ) ByScoreDesc :=
  ⟨fun _ _ _ h1 h2 => h2.trans h1⟩

/-- Top-`n` of a scored candidate list, by descending raw score. -/
def topN (scored : List (DocumentChunk × ℚ)) (n : Nat) : List (DocumentChunk × ℚ) :=
  (scored.insertionSort ByScoreDesc).take n

/-- Modelled from the spec: the lexical (BM25) channel — scores the chunks of
the tenant corpus that share a token with the query and returns the top `n`;
a query sharing no token with the corpus vocabulary yields the empty list. -/
def lexicalQuery (idf : List Char → ℚ) (corpus : List DocumentChunk)
    (queryText : List Char) (n : Nat) : List (DocumentChunk × ℚ) :=
  let qtoks := tokenize queryText
  let docs := corpus.map (fun c => tokenize c.content)
  let matching := corpus.filter
    (fun c => qtoks.any (fun tk => (tokenize c.content).contains tk))
  topN (matching.map
    (fun c => (c, bm25Score idf qtoks (tokenize c.content) (avgdl docs)))) n

/-- Modelled from the spec: the semantic channel — the vector index holds
`(chunk, namespace)` entries; a query against a tenant namespace ranks only
the entries of that namespace, by the similarity `sim` of the query
embedding. -/
def semanticQuery (store : List (DocumentChunk × String)) (tenantNs : String)
    (sim : DocumentChunk → ℚ) (n : Nat) : List (DocumentChunk × ℚ) :=
  topN ((store.filter (fun e => decide (e.2 = tenantNs))).map
    (fun e => (e.1, sim e.1))) n

/-- Modelled from the spec: the retrieval query surface
`retrieve(tenant_id, query_text, top_k)` — fetch `candN top_k` candidates
from each channel independently (lexical over the tenant's chunks, semantic
in the tenant's namespace) and hand both sets to the hybrid ranker. -/
def retrieve (idf : List Char → ℚ) (corpus : List DocumentChunk)
    (store : List (DocumentChunk × String)) (sim : DocumentChunk → ℚ)
    (tenant : String) (queryText : List Char) (top_k : Nat) :
    List RankedCandidate :=
  hybridRank
    (lexicalQuery idf (corpus.filter (fun c => decide (c.tenant_id = tenant)))
      queryText (candN top_k))
    (semanticQuery store tenant sim (candN top_k))
    top_k

/-- The orchestrator's only fatal error: both channels failed. -/
inductive RetrievalFailure where
  | RetrievalUnavailable
deriving DecidableEq, Repr

/-- Candidates contributed by a channel outcome: a failed channel contributes
zero candidates. -/
def channelCandidates (r : Except Unit (List (DocumentChunk × ℚ))) :
    List (DocumentChunk × ℚ) :=
  match r with
  | .ok l => l
  | .error _ => []

/-- Modelled from the spec: the orchestrator's fan-out join — raises
`RetrievalUnavailable` exactly when both channels failed, otherwise ranks
whatever the surviving channels produced (an empty merge is an empty,
successful result). -/
def orchestrate (lexRes semRes : Except Unit (List (DocumentChunk × ℚ)))
    (top_k : Nat) : Except RetrievalFailure (List RankedCandidate) :=
  match lexRes, semRes with
  | .error _, .error _ => .error .RetrievalUnavailable
  | _, _ => .ok (hybridRank (channelCandidates lexRes) (channelCandidates semRes) top_k)

/-! ## Frontend chat error classifier
(embedded from `frontend/rag-frontend/src/app/(dashboard)/chat/page.tsx`,
`handleSendMessage` catch block) -/

/-- `sub.isPrefixOf hay || containsSub t sub` — JavaScript
`String.prototype.includes`. -/
def containsSub : List Char → List Char → Bool
  | [], sub => sub.isEmpty
  | h :: t, sub => sub.isPrefixOf (h :: t) || containsSub t sub

/-- The classifier of the chat page's catch block: given the response status,
the optional response `detail` and the optional error `message`, produce the
`(errorCode, errorMessage)` pair.  Mirrors the branch order of the source:
rate limit (HTTP 429) first, then the `detail` substring cascade
(quota/limit/exhausted, then token, then connection/network, then
no document/not found), then the message fallback. -/
def classifyChatError (status : Option Nat) (detail : Option (List Char))
    (msg : Option (List Char)) : String × List Char :=
  if status = some 429 then
    ("rate_limit", "⏳ Rate limit exceeded".toList)
  else
    match detail with
    | some d0 =>
      let d := lowerStr d0
      if containsSub d "quota".toList || containsSub d "limit".toList ||
          containsSub d "exhausted".toList then
        ("quota_exceeded", "🔑 Gemini API Quota Exceeded".toList)
      else if containsSub d "token".toList then
        ("token_limit", "⚠️ Token Limit Exceeded".toList)
      else if containsSub d "connection".toList || containsSub d "network".toList then
        ("network_error", "🌐 Network Connection Error".toList)
      else if containsSub d "no document".toList || containsSub d "not found".toList then
        ("no_documents", "📄 No Documents Found".toList)
      else
        ("unknown", d)
    | none =>
      match msg with
      | some m => ("unknown", m)
      | none => ("unknown", "Failed to get response".toList)

/-! ## Concrete example inputs -/

/-- A 60-character example document. -/
def exText60 : List Char :=
  "abcdefghijabcdefghijabcdefghijabcdefghijabcdefghijabcdefghij".toList

/-- An example chunk of tenant `tenantA`. -/
def chunkEx1 : DocumentChunk :=
  ⟨"doc1", 0, "alpha beta gamma".toList, 0, 16, "tenantA"⟩

/-- A second example chunk of tenant `tenantA`. -/
def chunkEx2 : DocumentChunk :=
  ⟨"doc2", 1, "delta epsilon".toList, 0, 13, "tenantA"⟩

/-- An example chunk owned by tenant `tenantB`, lexically relevant to the
query `alpha`. -/
def chunkEx3 : DocumentChunk :=
  ⟨"doc3", 0, "alpha alpha alpha".toList, 0, 17, "tenantB"⟩

/-- Example lexical channel output. -/
def lexEx : List (DocumentChunk × ℚ) := [(chunkEx1, 2), (chunkEx2, 1)]

/-- Example semantic channel output. -/
def semEx : List (DocumentChunk × ℚ) := [(chunkEx1, 1 / 2)]

/-- Example corpus holding chunks of two tenants. -/
def corpusEx : List DocumentChunk := [chunkEx1, chunkEx3]

/-- Example vector store, each chunk upserted under its tenant namespace. -/
def storeEx : List (DocumentChunk × String) :=
  [(chunkEx1, "tenantA"), (chunkEx3, "tenantB")]

/-- Example query-embedding similarity. -/
def simEx : DocumentChunk → ℚ := fun _ => 1

/-- Example abstract idf assignment. -/
def idfEx : List Char → ℚ := fun _ => 1

/-- First result of an example retrieval by tenant `tenantA`. -/
def rEx : RankedCandidate :=
  (retrieve idfEx corpusEx storeEx simEx "tenantA" "alpha".toList 5).headD default

/-- First result of an example hybrid ranking. -/
def rEx2 : RankedCandidate := (hybridRank lexEx semEx 5).headD default

/-! ## Chunker lemmas -/

theorem boundsFrom_eq_range (S step L : Nat) :
    ∀ (k pos : Nat), boundsFrom S step L k pos =
      (List.range k).map (fun i => (pos + i * step, min (pos + i * step + S) L)) := by
  intro k
  induction k with
  | zero => intro pos; rfl
  | succ k ih =>
    intro pos
    rw [List.range_succ_eq_map]
    simp only [boundsFrom, List.map_cons, ih]
    congr 1
    · simp
    · rw [List.map_map]
      apply List.map_congr_left
      intro i _
      simp only [Function.comp_apply, Nat.succ_eq_add_one]
      have h : pos + step + i * step = pos + (i + 1) * step := by ring
      rw [h]

theorem length_boundsFrom (S step L : Nat) (k pos : Nat) :
    (boundsFrom S step L k pos).length = k := by
  rw [boundsFrom_eq_range]; simp

theorem length_chunkBounds (S O L : Nat) :
    (chunkBounds S O L).length = numChunks S O L := by
  unfold chunkBounds; exact length_boundsFrom ..

theorem length_chunkText (tenant doc : String) (t : List Char) (S O : Nat) :
    (chunkText tenant doc t S O).length = numChunks S O t.length := by
  unfold chunkText
  rw [List.length_map, List.enum_length, length_chunkBounds]

/-- The first ceiling fact about `numChunks`: the last chunk reaches the end
of the text. -/
theorem numChunks_last_covers (S O L : Nat) (hO : O < S) :
    L ≤ (numChunks S O L - 1) * (S - O) + S := by
  unfold numChunks
  set step := S - O with hstep
  have hpos : 0 < step := by omega
  have hdm := Nat.div_add_mod (L - S + step - 1) step
  have hmod : (L - S + step - 1) % step < step := Nat.mod_lt _ hpos
  set q := (L - S + step - 1) / step with hq
  have hmul : step * q = q * step := Nat.mul_comm ..
  simp only [Nat.add_sub_cancel]
  omega

/-- The second ceiling fact about `numChunks`: every chunk but the last ends
strictly inside the text, i.e. the second-to-last start plus `S` still fits. -/
theorem numChunks_penultimate_fits (S O L : Nat) (hO : O < S)
    (h : 1 ≤ numChunks S O L - 1) :
    (numChunks S O L - 1 - 1) * (S - O) + S ≤ L := by
  unfold numChunks at *
  set step := S - O with hstep
  have hpos : 0 < step := by omega
  have hdm := Nat.div_add_mod (L - S + step - 1) step
  have hmod : (L - S + step - 1) % step < step := Nat.mod_lt _ hpos
  set q := (L - S + step - 1) / step with hq
  have hq1 : 1 ≤ q := by omega
  have hmul : step * q = q * step := Nat.mul_comm ..
  have hqm : (q - 1) * step + step = q * step := by
    have : q - 1 + 1 = q := by omega
    calc (q - 1) * step + step = (q - 1 + 1) * step := by ring
    _ = q * step := by rw [this]
  simp only [Nat.add_sub_cancel]
  -- if L ≤ S then q = 0, contradicting hq1
  by_cases hLS : L ≤ S
  · exfalso
    have hstepq : step ≤ step * q := Nat.le_mul_of_pos_right step (by omega)
    omega
  · omega

/-- Splicing two adjacent slices of the same text. -/
theorem sliceB_glue (t : List Char) {a b c : Nat} (hab : a ≤ b) (hbc : b ≤ c) :
    sliceB t (a, b) ++ sliceB t (b, c) = sliceB t (a, c) := by
  unfold sliceB
  simp only
  have h1 : c - a = (b - a) + (c - b) := by omega
  have h2 : a + (b - a) = b := by omega
  rw [h1, List.take_add, List.drop_drop, h2]

/-- Dropping the first `O` characters of a slice advances its start by `O`. -/
theorem sliceB_drop (t : List Char) (a b O : Nat) :
    (sliceB t (a, b)).drop O = sliceB t (a + O, b) := by
  unfold sliceB
  simp only
  rw [List.drop_take, List.drop_drop]
  congr 1
  omega

theorem sliceB_zero_length (t : List Char) : sliceB t (0, t.length) = t := by
  unfold sliceB
  simp

/-- Core reconstruction invariant of the forward chunking pass: over any
suffix of the walk whose last chunk reaches the end of the text and whose
other chunks all end inside it, the unique spans concatenate to the
remaining text. -/
theorem uniqueJoin_boundsFrom (t : List Char) (S O : Nat) (hO : O < S) :
    ∀ (k pos : Nat),
      t.length ≤ pos + k * (S - O) + S →
      (k = 0 ∨ pos + k * (S - O) + O ≤ t.length) →
      uniqueJoin O ((boundsFrom S (S - O) t.length (k + 1) pos).map (sliceB t)) =
        sliceB t (pos, t.length) := by
  intro k
  set step := S - O with hstep
  have hSO : step + O = S := by omega
  induction k with
  | zero =>
    intro pos h1 _
    have hmin : min (pos + S) t.length = t.length := by
      apply min_eq_right; omega
    simp only [boundsFrom, hmin, List.map_cons, List.map_nil, uniqueJoin,
      List.flatten_nil, List.append_nil]
  | succ k ih =>
    intro pos h1 h2
    rcases h2 with h2 | h2
    · omega
    have hkstep : step ≤ (k + 1) * step := Nat.le_mul_of_pos_left step (by omega)
    have hposS : pos + S ≤ t.length := by
      have : pos + step + O ≤ pos + (k + 1) * step + O := by omega
      omega
    have hmin : min (pos + S) t.length = pos + S := min_eq_left hposS
    -- expose the head of the recursive tail
    have hnext : boundsFrom S step t.length (k + 1) (pos + step) =
        (pos + step, min (pos + step + S) t.length) ::
          boundsFrom S step t.length k (pos + step + step) := rfl
    have hq : pos + step + O = pos + S := by omega
    have hqle : pos + step ≤ min (pos + step + S) t.length := by
      apply le_min
      · omega
      · have : pos + step ≤ pos + S := by omega
        omega
    have hSle : pos + S ≤ min (pos + step + S) t.length := by
      apply le_min
      · omega
      · exact hposS
    -- the tail itself is the reconstruction of the text from pos + step
    have hih : uniqueJoin O ((boundsFrom S step t.length (k + 1) (pos + step)).map (sliceB t)) =
        sliceB t (pos + step, t.length) := by
      apply ih
      · have : pos + (k + 1) * step = pos + step + k * step := by ring
        omega
      · right
        have : pos + (k + 1) * step = pos + step + k * step := by ring
        omega
    rw [hnext] at hih
    simp only [List.map_cons, uniqueJoin, List.flatten_cons] at hih ⊢
    show sliceB t (pos, min (pos + S) t.length) ++
        ((sliceB t (pos + step, min (pos + step + S) t.length)).drop O ++
          ((boundsFrom S step t.length k (pos + step + step)).map (sliceB t)
            |>.map (List.drop O)).flatten) = sliceB t (pos, t.length)
    rw [hmin, sliceB_drop, hq, ← List.append_assoc]
    rw [sliceB_glue t (by omega : pos ≤ pos + S) hSle]
    rw [← sliceB_glue t (by omega : pos ≤ pos + step) hqle]
    rw [List.append_assoc, hih]
    exact sliceB_glue t (by omega) (by omega)

theorem numChunks_eq_succ (S O L : Nat) :
    numChunks S O L = (numChunks S O L - 1) + 1 := by
  unfold numChunks
  simp

/-- Reconstruction at the level of `chunkBounds`. -/
theorem uniqueJoin_chunkBounds (t : List Char) (S O : Nat) (hO : O < S) :
    uniqueJoin O ((chunkBounds S O t.length).map (sliceB t)) = t := by
  have hk := numChunks_eq_succ S O t.length
  have h1 := numChunks_last_covers S O t.length hO
  have h2 : numChunks S O t.length - 1 = 0 ∨
      0 + (numChunks S O t.length - 1) * (S - O) + O ≤ t.length := by
    by_cases hz : numChunks S O t.length - 1 = 0
    · exact Or.inl hz
    · right
      have hp := numChunks_penultimate_fits S O t.length hO (by omega)
      have hstep : numChunks S O t.length - 1 - 1 + 1 = numChunks S O t.length - 1 := by
        omega
      have hq : (numChunks S O t.length - 1 - 1) * (S - O) + (S - O) =
          (numChunks S O t.length - 1) * (S - O) := by
        calc (numChunks S O t.length - 1 - 1) * (S - O) + (S - O)
            = (numChunks S O t.length - 1 - 1 + 1) * (S - O) := by ring
          _ = (numChunks S O t.length - 1) * (S - O) := by rw [hstep]
      omega
  have hmain := uniqueJoin_boundsFrom t S O hO (numChunks S O t.length - 1) 0
    (by omega) h2
  unfold chunkBounds
  rw [hk]
  exact hmain.trans (sliceB_zero_length t)

/-- The contents of the produced chunks are exactly the slices at the chunk
bounds. -/
theorem chunkText_contents (tenant doc : String) (t : List Char) (S O : Nat) :
    (chunkText tenant doc t S O).map (fun c => c.content) =
      (chunkBounds S O t.length).map (sliceB t) := by
  unfold chunkText
  rw [List.map_map]
  have : ((fun c : DocumentChunk => c.content) ∘
      (fun ip : Nat × (Nat × Nat) => DocumentChunk.mk doc ip.1 (sliceB t ip.2) ip.2.1 ip.2.2 tenant)) =
      (sliceB t) ∘ Prod.snd := rfl
  rw [this, ← List.map_map, List.enum_map_snd]

/-- The recorded offsets of the produced chunks are exactly the chunk bounds. -/
theorem chunkText_offsets (tenant doc : String) (t : List Char) (S O : Nat) :
    (chunkText tenant doc t S O).map (fun c => (c.start_char, c.end_char)) =
      chunkBounds S O t.length := by
  unfold chunkText
  rw [List.map_map]
  have : ((fun c : DocumentChunk => (c.start_char, c.end_char)) ∘
      (fun ip : Nat × (Nat × Nat) => DocumentChunk.mk doc ip.1 (sliceB t ip.2) ip.2.1 ip.2.2 tenant)) =
      Prod.snd := rfl
  rw [this, List.enum_map_snd]

/-! ## Tokenizer lemmas -/

theorem length_dropWhile_le (p : Char → Bool) (l : List Char) :
    (l.dropWhile p).length ≤ l.length := by
  induction l with
  | nil => simp [List.dropWhile]
  | cons c cs ih =>
    by_cases h : p c
    · simp only [List.dropWhile, h]
      exact ih.trans (by simp)
    · simp [List.dropWhile, h]

/-- With enough fuel, the splitter's tokens concatenate to exactly the
alphanumeric characters of the input, in order. -/
theorem tokensFuel_flatten (p : Nat) :
    ∀ (l : List Char), l.length ≤ p →
      (tokensFuel p l).flatten = l.filter Char.isAlphanum := by
  induction p with
  | zero =>
    intro l hl
    have : l = [] := List.eq_nil_of_length_eq_zero (by omega)
    subst this
    rfl
  | succ p ih =>
    intro l hl
    match l with
    | [] => rfl
    | c :: cs =>
      by_cases h : c.isAlphanum
      · simp only [tokensFuel, h, if_pos, List.flatten_cons]
        have hdw : (cs.dropWhile Char.isAlphanum).length ≤ p := by
          have := length_dropWhile_le Char.isAlphanum cs
          simp at hl
          omega
        rw [ih _ hdw]
        have hfil : List.filter Char.isAlphanum (c :: cs) =
            c :: List.filter Char.isAlphanum cs := by
          simp [List.filter, h]
        rw [hfil]
        simp only [List.cons_append, List.cons.injEq, true_and]
        -- takeWhile ++ filter (dropWhile) = filter
        have hsplit := List.takeWhile_append_dropWhile (p := Char.isAlphanum) (l := cs)
        calc cs.takeWhile Char.isAlphanum ++
              List.filter Char.isAlphanum (cs.dropWhile Char.isAlphanum)
            = List.filter Char.isAlphanum (cs.takeWhile Char.isAlphanum) ++
              List.filter Char.isAlphanum (cs.dropWhile Char.isAlphanum) := by
              have hts : List.filter Char.isAlphanum (cs.takeWhile Char.isAlphanum) =
                  cs.takeWhile Char.isAlphanum :=
                List.filter_eq_self.mpr (fun a ha => List.mem_takeWhile_imp ha)
              rw [hts]
          _ = List.filter Char.isAlphanum
                (cs.takeWhile Char.isAlphanum ++ cs.dropWhile Char.isAlphanum) := by
              rw [List.filter_append]
          _ = List.filter Char.isAlphanum cs := by rw [hsplit]
      · simp only [tokensFuel, h, if_neg, Bool.false_eq_true, not_false_iff]
        have hcs : cs.length ≤ p := by simp at hl; omega
        rw [ih _ hcs]
        simp [List.filter, h]

/-- With enough fuel, every token the splitter produces is a non-empty run of
alphanumeric characters. -/
theorem tokensFuel_tokens (p : Nat) :
    ∀ (l : List Char) (tok : List Char), l.length ≤ p → tok ∈ tokensFuel p l →
      tok ≠ [] ∧ ∀ ch ∈ tok, ch.isAlphanum = true := by
  induction p with
  | zero =>
    intro l tok _ htok
    simp [tokensFuel] at htok
  | succ p ih =>
    intro l tok hl htok
    match l with
    | [] => simp [tokensFuel] at htok
    | c :: cs =>
      by_cases h : c.isAlphanum
      · simp only [tokensFuel, h, if_pos, List.mem_cons] at htok
        rcases htok with rfl | htok
        · refine ⟨by simp, ?_⟩
          intro ch hch
          rcases List.mem_cons.mp hch with rfl | hch
          · exact h
          · exact List.mem_takeWhile_imp hch
        · have hdw : (cs.dropWhile Char.isAlphanum).length ≤ p := by
            have := length_dropWhile_le Char.isAlphanum cs
            simp at hl
            omega
          exact ih _ tok hdw htok
      · simp only [tokensFuel, h, if_neg, Bool.false_eq_true, not_false_iff] at htok
        have hcs : cs.length ≤ p := by simp at hl; omega
        exact ih _ tok hcs htok

/-- The tokens of `tokenize` concatenate to the lowercased alphanumeric
characters of the input: nothing but separators is dropped, nothing is added,
no stemming is applied. -/
theorem tokenize_flatten (s : List Char) :
    (tokenize s).flatten = (lowerStr s).filter Char.isAlphanum :=
  tokensFuel_flatten _ _ le_rfl

theorem tokenize_tokens (s : List Char) (tok : List Char) (h : tok ∈ tokenize s) :
    tok ≠ [] ∧ ∀ ch ∈ tok, ch.isAlphanum = true :=
  tokensFuel_tokens _ _ _ le_rfl h

/-! ## Ranker lemmas -/

theorem listMin_le {l : List ℚ} {s : ℚ} (h : s ∈ l) : listMin l ≤ s := by
  induction l with
  | nil => simp at h
  | cons x tl ih =>
    match tl with
    | [] =>
      simp at h
      subst h
      exact le_rfl
    | y :: tl2 =>
      rcases List.mem_cons.mp h with rfl | h2
      · exact min_le_left ..
      · exact (min_le_right ..).trans (ih h2)

theorem le_listMax {l : List ℚ} {s : ℚ} (h : s ∈ l) : s ≤ listMax l := by
  induction l with
  | nil => simp at h
  | cons x tl ih =>
    match tl with
    | [] =>
      simp at h
      subst h
      exact le_rfl
    | y :: tl2 =>
      rcases List.mem_cons.mp h with rfl | h2
      · exact le_max_left ..
      · exact (ih h2).trans (le_max_right ..)

theorem minMaxNorm_mem_bounds {l : List ℚ} {s : ℚ} (h : s ∈ l) :
    0 ≤ minMaxNorm l s ∧ minMaxNorm l s ≤ 1 := by
  unfold minMaxNorm
  by_cases hd : listMax l = listMin l
  · simp [hd]
  · simp only [hd, if_neg, if_false]
    have hlo := listMin_le h
    have hhi := le_listMax h
    have hlt : listMin l < listMax l :=
      lt_of_le_of_ne (hlo.trans hhi) (Ne.symm hd)
    have hpos : 0 < listMax l - listMin l := by linarith
    constructor
    · exact div_nonneg (by linarith) hpos.le
    · rw [div_le_one hpos]
      linarith

theorem clamp01_bounds (s : ℚ) : 0 ≤ clamp01 s ∧ clamp01 s ≤ 1 := by
  unfold clamp01
  constructor
  · exact le_max_left ..
  · apply max_le
    · norm_num
    · exact min_le_left ..

theorem clamp01_nonpos {s : ℚ} (h : s ≤ 0) : clamp01 s = 0 := by
  unfold clamp01
  have h1 : min 1 s = s := min_eq_right (by linarith)
  rw [h1]
  exact max_eq_left h

theorem lexNormOf_bounds (lex : List (DocumentChunk × ℚ)) (c : DocumentChunk) :
    0 ≤ lexNormOf lex c ∧ lexNormOf lex c ≤ 1 := by
  unfold lexNormOf
  cases hf : lex.find? (fun p => decide (p.1 = c)) with
  | some p =>
    have hmem : p ∈ lex := List.mem_of_find?_eq_some hf
    have hsnd : p.2 ∈ lex.map Prod.snd := List.mem_map.mpr ⟨p, hmem, rfl⟩
    exact minMaxNorm_mem_bounds hsnd
  | none =>
    exact ⟨le_rfl, by norm_num⟩

theorem semNormOf_bounds (sem : List (DocumentChunk × ℚ)) (c : DocumentChunk) :
    0 ≤ semNormOf sem c ∧ semNormOf sem c ≤ 1 := by
  unfold semNormOf
  cases hf : sem.find? (fun p => decide (p.1 = c)) with
  | some p =>
    exact clamp01_bounds p.2
  | none =>
    exact ⟨le_rfl, by norm_num⟩

theorem combinedScore_bounds (lex sem : List (DocumentChunk × ℚ)) (c : DocumentChunk) :
    0 ≤ combinedScore lex sem c ∧ combinedScore lex sem c ≤ 1 := by
  obtain ⟨hl0, hl1⟩ := lexNormOf_bounds lex c
  obtain ⟨hs0, hs1⟩ := semNormOf_bounds sem c
  unfold combinedScore HYBRID_LEXICAL_WEIGHT HYBRID_SEMANTIC_WEIGHT
  constructor <;> nlinarith

theorem mem_of_mem_topN {scored : List (DocumentChunk × ℚ)} {n : Nat}
    {x : DocumentChunk × ℚ} (h : x ∈ topN scored n) : x ∈ scored := by
  unfold topN at h
  have h2 := List.mem_of_mem_take h
  exact (List.perm_insertionSort ByScoreDesc scored).mem_iff.mp h2

theorem mem_of_mem_hybridRank {lex sem : List (DocumentChunk × ℚ)} {k : Nat}
    {r : RankedCandidate} (h : r ∈ hybridRank lex sem k) :
    r ∈ mergeCandidates lex sem := by
  unfold hybridRank at h
  have h2 := List.mem_of_mem_take h
  exact (List.perm_insertionSort RankLE (mergeCandidates lex sem)).mem_iff.mp h2

theorem mem_mergeCandidates {lex sem : List (DocumentChunk × ℚ)}
    {r : RankedCandidate} (h : r ∈ mergeCandidates lex sem) :
    r.chunk ∈ lex.map Prod.fst ∨ r.chunk ∈ sem.map Prod.fst := by
  unfold mergeCandidates at h
  obtain ⟨c, hc, rfl⟩ := List.mem_map.mp h
  unfold candidateKeys at hc
  exact List.mem_append.mp (List.mem_dedup.mp hc)

theorem mem_lexicalQuery {idf : List Char → ℚ} {corpus : List DocumentChunk}
    {q : List Char} {n : Nat} {x : DocumentChunk × ℚ}
    (h : x ∈ lexicalQuery idf corpus q n) : x.1 ∈ corpus := by
  unfold lexicalQuery at h
  have h2 := mem_of_mem_topN h
  obtain ⟨c, hc, rfl⟩ := List.mem_map.mp h2
  exact List.mem_of_mem_filter hc

theorem mem_semanticQuery {store : List (DocumentChunk × String)} {ns : String}
    {sim : DocumentChunk → ℚ} {n : Nat} {x : DocumentChunk × ℚ}
    (h : x ∈ semanticQuery store ns sim n) :
    ∃ e ∈ store, e.2 = ns ∧ x.1 = e.1 := by
  unfold semanticQuery at h
  have h2 := mem_of_mem_topN h
  obtain ⟨e, he, rfl⟩ := List.mem_map.mp h2
  refine ⟨e, List.mem_of_mem_filter he, ?_, rfl⟩
  have := List.of_mem_filter he
  exact of_decide_eq_true this

theorem hybridRank_sorted (lex sem : List (DocumentChunk × ℚ)) (k : Nat) :
    List.Sorted RankLE (hybridRank lex sem k) := by
  unfold hybridRank
  exact List.Pairwise.sublist (List.take_sublist ..)
    (List.sorted_insertionSort RankLE (mergeCandidates lex sem))

theorem hybridRank_length_le (lex sem : List (DocumentChunk × ℚ)) (k : Nat) :
    (hybridRank lex sem k).length ≤ k := by
  unfold hybridRank
  rw [List.length_take]
  exact min_le_left ..

/-! ## Structural form of a produced chunk -/

theorem boundsFrom_get (S step L : Nat) :
    ∀ (k pos i : Nat) (h : i < (boundsFrom S step L k pos).length),
      (boundsFrom S step L k pos).get ⟨i, h⟩ =
        (pos + i * step, min (pos + i * step + S) L) := by
  intro k
  induction k with
  | zero =>
    intro pos i h
    rw [length_boundsFrom] at h
    omega
  | succ k ih =>
    intro pos i h
    match i with
    | 0 => simp [boundsFrom]
    | j + 1 =>
      have hj : j < (boundsFrom S step L k (pos + step)).length := by
        rw [length_boundsFrom]
        rw [length_boundsFrom] at h
        omega
      have := ih (pos + step) j hj
      simp only [boundsFrom, List.get_cons_succ]
      rw [this]
      have harith : pos + step + j * step = pos + (j + 1) * step := by ring
      rw [harith]

theorem chunkText_get (tenant doc : String) (t : List Char) (S O : Nat)
    (i : Nat) (h : i < (chunkText tenant doc t S O).length) :
    (chunkText tenant doc t S O).get ⟨i, h⟩ =
      ⟨doc, i, sliceB t (i * (S - O), min (i * (S - O) + S) t.length),
        i * (S - O), min (i * (S - O) + S) t.length, tenant⟩ := by
  have hlen : i < (chunkBounds S O t.length).length := by
    have h1 := length_chunkText tenant doc t S O
    have h2 := length_chunkBounds S O t.length
    omega
  have hb : (chunkBounds S O t.length).get ⟨i, hlen⟩ =
      (i * (S - O), min (i * (S - O) + S) t.length) := by
    have := boundsFrom_get S (S - O) t.length (numChunks S O t.length) 0 i
      (by unfold chunkBounds at hlen; exact hlen)
    simpa [chunkBounds] using this
  rw [List.get_eq_getElem]
  unfold chunkText
  simp only [List.getElem_map, List.getElem_enum]
  rw [List.get_eq_getElem] at hb
  simp only [hb]

/-! ## Claim theorems -/

/-- C1: for every retrieval query the hybrid ranker fetches its candidates
from the lexical and the semantic channel independently with
`N = max(20, 4 * top_k) ≥ top_k`, and assigns every chunk appearing in either
candidate set `combined_score = 0.5 * lexical_norm + 0.5 * semantic_norm`,
a channel in which the chunk is absent contributing `0`. -/
theorem C1_hybrid_candidate_fetch :
    (∀ top_k : Nat, top_k ≤ candN top_k) ∧
    (∀ top_k : Nat, candN top_k = max 20 (4 * top_k)) ∧
    HYBRID_LEXICAL_WEIGHT = 1 / 2 ∧ HYBRID_SEMANTIC_WEIGHT = 1 / 2 ∧
    (∀ idf corpus store sim tenant q top_k,
      retrieve idf corpus store sim tenant q top_k =
        hybridRank
          (lexicalQuery idf (corpus.filter (fun c => decide (c.tenant_id = tenant)))
            q (candN top_k))
          (semanticQuery store tenant sim (candN top_k)) top_k) ∧
    (∀ lex sem r, r ∈ mergeCandidates lex sem →
      r.combined_score =
        HYBRID_LEXICAL_WEIGHT * lexNormOf lex r.chunk +
          HYBRID_SEMANTIC_WEIGHT * semNormOf sem r.chunk) ∧
    (∀ lex sem c, (c ∈ lex.map Prod.fst ∨ c ∈ sem.map Prod.fst) →
      (⟨c, combinedScore lex sem c⟩ : RankedCandidate) ∈ mergeCandidates lex sem) ∧
    (∀ lex c, lex.find? (fun p => decide (p.1 = c)) = none → lexNormOf lex c = 0) ∧
    (∀ sem c, sem.find? (fun p => decide (p.1 = c)) = none → semNormOf sem c = 0) := by
  refine ⟨?_, fun _ => rfl, rfl, rfl, fun _ _ _ _ _ _ _ => rfl, ?_, ?_, ?_, ?_⟩
  · intro k
    exact le_trans (by omega) (le_max_right 20 (4 * k))
  · intro lex sem r hr
    unfold mergeCandidates at hr
    obtain ⟨c, _, rfl⟩ := List.mem_map.mp hr
    rfl
  · intro lex sem c hc
    unfold mergeCandidates candidateKeys
    exact List.mem_map.mpr
      ⟨c, List.mem_dedup.mpr (List.mem_append.mpr hc), rfl⟩
  · intro lex c h
    unfold lexNormOf
    rw [h]
  · intro sem c h
    unfold semNormOf
    rw [h]

/-- C1 witness: the chunk returned by the lexical channel of a concrete query
appears in the merged candidate set with the 50/50 combined score. -/
theorem C1_witness :
    (⟨chunkEx1, combinedScore lexEx semEx chunkEx1⟩ : RankedCandidate) ∈
      mergeCandidates lexEx semEx :=
  C1_hybrid_candidate_fetch.2.2.2.2.2.2.1 lexEx semEx chunkEx1 (Or.inl (by decide))

/-- C2 (amended): chunking an input whose cleaned length is below the
50-character minimum produces no chunks and raises `ChunkingError` —
`EmptyInput` on empty input, `BelowMinimumLength` otherwise; in particular the
43-character document `"The quick brown fox jumps over the lazy dog"` is
rejected with `BelowMinimumLength`. -/
theorem C2_below_minimum_chunking_error :
    (∀ (tenant doc : String) (t : List Char) (S O : Nat),
      (cleanText t).length < MIN_TEXT_LENGTH →
      ingest tenant doc t S O =
        .error (if (cleanText t).length = 0 then ChunkingReason.EmptyInput
          else ChunkingReason.BelowMinimumLength)) ∧
    (cleanText "The quick brown fox jumps over the lazy dog".toList).length = 43 ∧
    ingest "tenantA" "doc1" "The quick brown fox jumps over the lazy dog".toList
      CHUNK_SIZE CHUNK_OVERLAP = .error ChunkingReason.BelowMinimumLength := by
  refine ⟨?_, by decide, by decide⟩
  intro tenant doc t S O h
  unfold ingest
  split_ifs with h1 <;> simp [h1]

/-- C2 witness: a concrete 4-character ingestion is rejected with
`BelowMinimumLength`. -/
theorem C2_witness :
    ingest "tenantA" "doc1" "tiny".toList CHUNK_SIZE CHUNK_OVERLAP =
      .error ChunkingReason.BelowMinimumLength := by
  have h := C2_below_minimum_chunking_error.1 "tenantA" "doc1" "tiny".toList
    CHUNK_SIZE CHUNK_OVERLAP (by decide)
  have he : (if (cleanText "tiny".toList).length = 0 then ChunkingReason.EmptyInput
      else ChunkingReason.BelowMinimumLength) = ChunkingReason.BelowMinimumLength := by
    decide
  rw [he] at h
  exact h

/-- C2 counterexample: the claim calls the quick-brown-fox document
45 characters long; its cleaned length is 43 (still below the threshold, and
the ingestion outcome is unchanged). -/
theorem C2_counterexample :
    (cleanText "The quick brown fox jumps over the lazy dog".toList).length = 43 ∧
    ¬ (cleanText "The quick brown fox jumps over the lazy dog".toList).length = 45 ∧
    ingest "tenantA" "doc1" "The quick brown fox jumps over the lazy dog".toList
      CHUNK_SIZE CHUNK_OVERLAP = .error ChunkingReason.BelowMinimumLength := by
  decide

/-- C3: tenant isolation — whenever every vector-store entry is upserted
under its chunk's tenant namespace, every chunk of a retrieval result for
tenant `A` has `tenant_id = A`, whatever the corpus, store, similarity and
query (so also when another tenant holds higher-scoring content). -/
theorem C3_tenant_isolation :
    ∀ (idf : List Char → ℚ) (corpus : List DocumentChunk)
      (store : List (DocumentChunk × String)) (sim : DocumentChunk → ℚ)
      (tenant : String) (q : List Char) (top_k : Nat) (r : RankedCandidate),
      (∀ e ∈ store, (e : DocumentChunk × String).1.tenant_id = e.2) →
      r ∈ retrieve idf corpus store sim tenant q top_k →
      r.chunk.tenant_id = tenant := by
  intro idf corpus store sim tenant q top_k r hstore hr
  unfold retrieve at hr
  have h1 := mem_of_mem_hybridRank hr
  rcases mem_mergeCandidates h1 with h2 | h2
  · obtain ⟨x, hx, hxc⟩ := List.mem_map.mp h2
    have h3 := mem_lexicalQuery hx
    have h4 := List.of_mem_filter h3
    rw [← hxc]
    exact of_decide_eq_true h4
  · obtain ⟨x, hx, hxc⟩ := List.mem_map.mp h2
    obtain ⟨e, he, hens, hxe⟩ := mem_semanticQuery hx
    rw [← hxc, hxe, hstore e he]
    exact hens

-- C3 witness: in a concrete two-tenant corpus where tenant tenantB owns the
-- lexically strongest chunk, the top result of a tenantA query still belongs
-- to tenantA.
unseal Rat.add Rat.mul Rat.inv Rat.sub in
theorem C3_witness : rEx.chunk.tenant_id = "tenantA" :=
  C3_tenant_isolation idfEx corpusEx storeEx simEx "tenantA" "alpha".toList 5 rEx
    (by decide) (by decide)

/-- C4: for a text of cleaned length at or above the minimum and any
`S > 0`, `0 ≤ O < S`, chunk `i` starts at `i * (S - O)` and spans `S`
characters, except the last chunk, which runs to the end of the text; in
particular any 3000-character document with `S = 1000`, `O = 200` yields
exactly 4 chunks at offsets `[0,1000)`, `[800,1800)`, `[1600,2600)`,
`[2400,3000)`. -/
theorem C4_chunk_offsets :
    (∀ (tenant doc : String) (t : List Char) (S O : Nat), 0 < S → O < S →
      MIN_TEXT_LENGTH ≤ (cleanText t).length →
      ∀ (i : Nat) (h : i < (chunkText tenant doc (cleanText t) S O).length),
        ((chunkText tenant doc (cleanText t) S O).get ⟨i, h⟩).start_char = i * (S - O) ∧
        (i + 1 < (chunkText tenant doc (cleanText t) S O).length →
          ((chunkText tenant doc (cleanText t) S O).get ⟨i, h⟩).end_char = i * (S - O) + S ∧
          ((chunkText tenant doc (cleanText t) S O).get ⟨i, h⟩).content.length = S) ∧
        (i + 1 = (chunkText tenant doc (cleanText t) S O).length →
          ((chunkText tenant doc (cleanText t) S O).get ⟨i, h⟩).end_char =
            (cleanText t).length)) ∧
    (∀ (tenant doc : String) (t : List Char), t.length = 3000 →
      (chunkText tenant doc t CHUNK_SIZE CHUNK_OVERLAP).length = 4 ∧
      (chunkText tenant doc t CHUNK_SIZE CHUNK_OVERLAP).map
          (fun c => (c.start_char, c.end_char)) =
        [(0, 1000), (800, 1800), (1600, 2600), (2400, 3000)]) := by
  constructor
  · intro tenant doc t S O hS hO hmin i h
    have hget := chunkText_get tenant doc (cleanText t) S O i h
    have hn := length_chunkText tenant doc (cleanText t) S O
    rw [hget]
    refine ⟨rfl, ?_, ?_⟩
    · intro hlast
      have hi : i + 1 < numChunks S O (cleanText t).length := by omega
      have hpen : 1 ≤ numChunks S O (cleanText t).length - 1 := by omega
      have hfit := numChunks_penultimate_fits S O (cleanText t).length hO hpen
      have hile : i ≤ numChunks S O (cleanText t).length - 1 - 1 := by omega
      have hmono : i * (S - O) ≤
          (numChunks S O (cleanText t).length - 1 - 1) * (S - O) :=
        Nat.mul_le_mul_right _ hile
      have hin : i * (S - O) + S ≤ (cleanText t).length := by omega
      have hmin2 : min (i * (S - O) + S) (cleanText t).length = i * (S - O) + S :=
        min_eq_left hin
      refine ⟨by rw [hmin2], ?_⟩
      rw [hmin2]
      unfold sliceB
      simp only [List.length_take, List.length_drop]
      omega
    · intro hlast
      have hi : i = numChunks S O (cleanText t).length - 1 := by omega
      have hcov := numChunks_last_covers S O (cleanText t).length hO
      have hge : (cleanText t).length ≤ i * (S - O) + S := by rw [hi]; exact hcov
      simp only
      exact min_eq_right hge
  · intro tenant doc t ht
    constructor
    · rw [length_chunkText, ht]
      decide
    · rw [chunkText_offsets, ht]
      decide

/-- C4 witness: the offset list of a concrete 3000-character document chunked
with the default size 1000 and overlap 200. -/
theorem C4_witness :
    (chunkText "tenantA" "doc1" (List.replicate 3000 'a') CHUNK_SIZE CHUNK_OVERLAP).map
        (fun c => (c.start_char, c.end_char)) =
      [(0, 1000), (800, 1800), (1600, 2600), (2400, 3000)] :=
  (C4_chunk_offsets.2 "tenantA" "doc1" (List.replicate 3000 'a')
    (List.length_replicate 3000 'a')).2

/-- C5: lossless reconstruction — for every successful ingestion
(`0 < S`, `0 ≤ O < S`), concatenating, in chunk order, the non-overlapping
portion of each produced chunk reconstructs the normalized text exactly. -/
theorem C5_lossless_reconstruction :
    ∀ (tenant doc : String) (t : List Char) (S O : Nat)
      (chunks : List DocumentChunk),
      0 < S → O < S →
      ingest tenant doc t S O = .ok chunks →
      uniqueJoin O (chunks.map (fun c => c.content)) = cleanText t := by
  intro tenant doc t S O chunks hS hO hok
  unfold ingest at hok
  split_ifs at hok
  cases hok
  rw [chunkText_contents]
  exact uniqueJoin_chunkBounds (cleanText t) S O hO

/-- C5 witness: a concrete 60-character document chunked with size 25 and
overlap 5 reconstructs exactly from the non-overlapping chunk portions. -/
theorem C5_witness :
    uniqueJoin 5 ((chunkText "tenantA" "doc1" (cleanText exText60) 25 5).map
      (fun c => c.content)) = cleanText exText60 :=
  C5_lossless_reconstruction "tenantA" "doc1" exText60 25 5
    (chunkText "tenantA" "doc1" (cleanText exText60) 25 5)
    (by decide) (by decide) (by decide)

/-- C6: combined-score bound — lexical scores are min-max normalized within
the query's own candidate set (the degenerate `max == min` case mapping every
score to `1`), semantic scores are clamped to `[0,1]` with negative cosine
values contributing `0`, and consequently every candidate of every query has
`0 ≤ combined_score ≤ 1`. -/
theorem C6_combined_score_bound :
    (∀ (scores : List ℚ) (s : ℚ), s ∈ scores →
      0 ≤ minMaxNorm scores s ∧ minMaxNorm scores s ≤ 1) ∧
    (∀ (scores : List ℚ) (s : ℚ), listMax scores = listMin scores →
      minMaxNorm scores s = 1) ∧
    (∀ s : ℚ, s ≤ 0 → clamp01 s = 0) ∧
    (∀ s : ℚ, 0 ≤ clamp01 s ∧ clamp01 s ≤ 1) ∧
    (∀ lex sem r, r ∈ mergeCandidates lex sem →
      0 ≤ r.combined_score ∧ r.combined_score ≤ 1) ∧
    (∀ lex sem top_k r, r ∈ hybridRank lex sem top_k →
      0 ≤ r.combined_score ∧ r.combined_score ≤ 1) := by
  have hmerge : ∀ lex sem r, r ∈ mergeCandidates lex sem →
      0 ≤ r.combined_score ∧ r.combined_score ≤ 1 := by
    intro lex sem r hr
    unfold mergeCandidates at hr
    obtain ⟨c, _, rfl⟩ := List.mem_map.mp hr
    exact combinedScore_bounds lex sem c
  refine ⟨fun scores s h => minMaxNorm_mem_bounds h, ?_, fun s h => clamp01_nonpos h,
    clamp01_bounds, hmerge, ?_⟩
  · intro scores s hd
    unfold minMaxNorm
    rw [if_pos hd]
  · intro lex sem top_k r hr
    exact hmerge lex sem r (mem_of_mem_hybridRank hr)

-- C6 witness: the top result of a concrete hybrid ranking has its combined
-- score inside [0, 1].
unseal Rat.add Rat.mul Rat.inv Rat.sub in
theorem C6_witness : 0 ≤ rEx2.combined_score ∧ rEx2.combined_score ≤ 1 :=
  C6_combined_score_bound.2.2.2.2.2 lexEx semEx 5 rEx2 (by decide)

/-- C7: every retrieval result is an ordered sequence of at most `top_k`
candidates (default `top_k = 5`), sorted descending by `combined_score` with
ties broken by `chunk_index` ascending and then by `document_id` in lexical
order. -/
theorem C7_result_ordering :
    DEFAULT_TOP_K = 5 ∧
    (∀ lex sem k, (hybridRank lex sem k).length ≤ k ∧
      List.Sorted RankLE (hybridRank lex sem k)) ∧
    (∀ idf corpus store sim tenant q k,
      (retrieve idf corpus store sim tenant q k).length ≤ k ∧
      List.Sorted RankLE (retrieve idf corpus store sim tenant q k)) ∧
    (∀ a b : RankedCandidate, RankLE a b ↔
      (b.combined_score < a.combined_score ∨
        (a.combined_score = b.combined_score ∧
          (a.chunk.chunk_index < b.chunk.chunk_index ∨
            (a.chunk.chunk_index = b.chunk.chunk_index ∧
              a.chunk.document_id ≤ b.chunk.document_id))))) := by
  refine ⟨rfl, ?_, ?_, fun a b => Iff.rfl⟩
  · intro lex sem k
    exact ⟨hybridRank_length_le lex sem k, hybridRank_sorted lex sem k⟩
  · intro idf corpus store sim tenant q k
    unfold retrieve
    exact ⟨hybridRank_length_le .., hybridRank_sorted ..⟩

/-- C7 witness: a concrete hybrid ranking holds at most 5 results and is
sorted by the ranker order. -/
theorem C7_witness :
    (hybridRank lexEx semEx 5).length ≤ 5 ∧
      List.Sorted RankLE (hybridRank lexEx semEx 5) :=
  C7_result_ordering.2.1 lexEx semEx 5

/-- C8: the orchestrator raises `RetrievalUnavailable` exactly when both
channels fail; a single failed channel contributes zero candidates and the
query still succeeds; two successful channels with zero candidates yield the
empty successful result, which is never the `RetrievalUnavailable` error. -/
theorem C8_orchestrator_failure :
    (∀ (lexRes semRes : Except Unit (List (DocumentChunk × ℚ))) (k : Nat),
      orchestrate lexRes semRes k = .error .RetrievalUnavailable ↔
        (∃ e, lexRes = .error e) ∧ (∃ e, semRes = .error e)) ∧
    (∀ e s k, orchestrate (.error e) (.ok s) k = .ok (hybridRank [] s k)) ∧
    (∀ l e k, orchestrate (.ok l) (.error e) k = .ok (hybridRank l [] k)) ∧
    (∀ k, orchestrate (.ok []) (.ok []) k = .ok []) ∧
    (∀ res : List RankedCandidate,
      (Except.ok res : Except RetrievalFailure (List RankedCandidate)) ≠
        .error .RetrievalUnavailable) := by
  refine ⟨?_, fun e s k => rfl, fun l e k => rfl, ?_, ?_⟩
  · intro lexRes semRes k
    cases lexRes <;> cases semRes <;>
      simp [orchestrate]
  · intro k
    show Except.ok (hybridRank [] [] k) = Except.ok []
    unfold hybridRank mergeCandidates candidateKeys
    simp
  · intro res h
    cases h

/-- C8 witness: a concrete query whose semantic channel failed still succeeds
on the lexical channel alone. -/
theorem C8_witness :
    orchestrate (.ok [(chunkEx1, (1 : ℚ))]) (.error ()) 5 =
      .ok (hybridRank [(chunkEx1, (1 : ℚ))] [] 5) :=
  C8_orchestrator_failure.2.2.1 [(chunkEx1, (1 : ℚ))] () 5

/-- C9: the BM25 channel tokenizes by lowercasing and splitting on
non-alphanumeric boundaries with no stemming (tokens are the non-empty
alphanumeric runs of the lowercased input, concatenating back to exactly its
alphanumeric characters), scores with Okapi BM25 under the default constants
`k1 = 1.5` and `b = 0.75`, and is deterministic: equal inputs yield equal
token sequences and equal scores. -/
theorem C9_bm25_tokenization :
    BM25_K1 = 3 / 2 ∧ BM25_B = 3 / 4 ∧
    (∀ s : List Char, (tokenize s).flatten = (lowerStr s).filter Char.isAlphanum) ∧
    (∀ s tok : List Char, tok ∈ tokenize s →
      tok ≠ [] ∧ ∀ ch ∈ tok, ch.isAlphanum = true) ∧
    (∀ (idf : List Char → ℚ) (qtoks doc : List (List Char)) (avg : ℚ),
      bm25Score idf qtoks doc avg =
        (qtoks.map (fun tk =>
          bm25TermScore (idf tk) (termFreq tk doc : ℚ) (doc.length : ℚ) avg)).sum) ∧
    (∀ s1 s2 : List Char, s1 = s2 →
      tokenize s1 = tokenize s2 ∧
      ∀ (idf : List Char → ℚ) (doc : List (List Char)) (avg : ℚ),
        bm25Score idf (tokenize s1) doc avg = bm25Score idf (tokenize s2) doc avg) := by
  refine ⟨rfl, rfl, tokenize_flatten, tokenize_tokens, fun _ _ _ _ => rfl, ?_⟩
  intro s1 s2 h
  subst h
  exact ⟨rfl, fun _ _ _ => rfl⟩

/-- C9 witness: a concrete token produced from `"Quota, exceeded!"` is a
non-empty lowercase alphanumeric run. -/
theorem C9_witness :
    ['q', 'u', 'o', 't', 'a'] ≠ ([] : List Char) ∧
      ∀ ch ∈ ['q', 'u', 'o', 't', 'a'], ch.isAlphanum = true :=
  C9_bm25_tokenization.2.2.2.1 "Quota, exceeded!".toList
    ['q', 'u', 'o', 't', 'a'] (by decide)

/-- C10 (amended): the chat frontend classifies backend errors by
substring-matching the lowercased response detail, and on a response that is
not a 429 rate-limit response, any detail containing `"quota"`, `"limit"` or
`"exhausted"` is mapped to error code `quota_exceeded` with the fixed message
`"🔑 Gemini API Quota Exceeded"` — this branch is checked before the
token/network/no-document branches. -/
theorem C10_error_classification :
    ∀ (status : Option Nat) (d : List Char) (msg : Option (List Char)),
      status ≠ some 429 →
      (containsSub (lowerStr d) "quota".toList = true ∨
        containsSub (lowerStr d) "limit".toList = true ∨
        containsSub (lowerStr d) "exhausted".toList = true) →
      classifyChatError status (some d) msg =
        ("quota_exceeded", "🔑 Gemini API Quota Exceeded".toList) := by
  intro status d msg hs hc
  unfold classifyChatError
  rw [if_neg hs]
  have hcond : (containsSub (lowerStr d) "quota".toList ||
      containsSub (lowerStr d) "limit".toList ||
      containsSub (lowerStr d) "exhausted".toList) = true := by
    rcases hc with h | h | h <;>
      simp only [h, Bool.or_true, Bool.true_or]
  simp only [hcond, if_pos]

/-- C10 witness: a non-429 response whose detail mentions a daily limit is
classified as `quota_exceeded` with the fixed quota message, although the
detail also mentions tokens. -/
theorem C10_witness :
    classifyChatError none (some "Daily LIMIT reached for tokens".toList) none =
      ("quota_exceeded", "🔑 Gemini API Quota Exceeded".toList) :=
  C10_error_classification none "Daily LIMIT reached for tokens".toList none
    (by decide) (by decide)

/-- C10 counterexample: on a 429 response the rate-limit branch precedes the
substring cascade, so a detail containing `"limit"` is classified
`rate_limit`, not `quota_exceeded`; and the fixed quota message is
`"🔑 Gemini API Quota Exceeded"`, not `"Gemini API Quota Exceeded"`. -/
theorem C10_counterexample :
    (classifyChatError (some 429) (some "quota limit exceeded".toList) none).1 =
        "rate_limit" ∧
    ¬ (classifyChatError (some 429) (some "quota limit exceeded".toList) none).1 =
        "quota_exceeded" ∧
    (classifyChatError none (some "API quota exhausted".toList) none).2 =
        "🔑 Gemini API Quota Exceeded".toList ∧
    ¬ (classifyChatError none (some "API quota exhausted".toList) none).2 =
        "Gemini API Quota Exceeded".toList := by
  decide

end RagEngine
